import Mathlib

/-!
# Verification of the HTTP server core (request codec, compression, worker pool)

A shallow embedding of the server's source files (`src/http.rs`, `src/error.rs`,
`src/threadpool.rs`) and proofs about the embedded definitions.

Modelling conventions:
* Byte streams are `List Nat` (each element a byte value); decoded Rust `String`s
  are `List Nat` of Unicode scalar values (codepoints).  UTF-8 encoding/decoding
  is modelled explicitly, with the validity checks Rust's `String::from_utf8`
  performs (continuation bytes, overlong forms, surrogates, maximal scalar).
* Rust `usize` parsing is modelled including the `2^64` overflow bound and the
  optional leading `+` sign accepted by `str::parse`.
* `String::to_lowercase` is modelled on the ASCII range (the keys compared in the
  source are ASCII literals).
* The gzip encoder comes from the external `flate2` crate; it is modelled as an
  arbitrary byte transformation `gz : List Nat → List Nat` passed as a parameter,
  since no property proved here depends on the particular compressed bytes.
* The reader loop in `HttpRequest::try_from` is embedded with an explicit fuel
  argument (structural recursion, so that the kernel can evaluate it); fuel
  `input.length + 1` is provably sufficient because every iteration consumes at
  least three bytes of input.
-/

/-- Codepoints of a string literal. -/
def str (s : String) : List Nat := s.data.map Char.toNat

/-- Rust `char::is_whitespace` (the Unicode `White_Space` property). -/
def isRustWhitespace (c : Nat) : Bool :=
  (9 ≤ c && c ≤ 13) || c = 32 || c = 0x85 || c = 0xA0 || c = 0x1680 ||
  (0x2000 ≤ c && c ≤ 0x200A) || c = 0x2028 || c = 0x2029 || c = 0x202F ||
  c = 0x205F || c = 0x3000

/-- Rust `str::trim`: strip leading and trailing whitespace. -/
def trim (s : List Nat) : List Nat :=
  ((s.dropWhile isRustWhitespace).reverse.dropWhile isRustWhitespace).reverse

/-- Rust `str::to_lowercase`, modelled on the ASCII range. -/
def toLowercase (s : List Nat) : List Nat :=
  s.map (fun c => if 65 ≤ c && c ≤ 90 then c + 32 else c)

/-- Rust `str::split(d)`: split on every occurrence of `d`, keeping empty parts
(`n` delimiters yield `n + 1` parts). -/
def splitOn (d : Nat) : List Nat → List (List Nat)
  | [] => [[]]
  | c :: rest =>
    if c = d then [] :: splitOn d rest
    else
      match splitOn d rest with
      | part :: parts => (c :: part) :: parts
      | [] => [[c]]

/-- Rust `str::split_once(d)`: split at the first occurrence of `d`. -/
def splitOnce (d : Nat) : List Nat → Option (List Nat × List Nat)
  | [] => none
  | c :: rest =>
    if c = d then some ([], rest)
    else (splitOnce d rest).map (fun p => (c :: p.1, p.2))

/-- Rust `str::ends_with("\r\n")`. -/
def endsWithCRLF (s : List Nat) : Bool :=
  match s.reverse with
  | 10 :: 13 :: _ => true
  | _ => false

/-- The two `String::pop` calls removing a trailing CRLF. -/
def dropLast2 (s : List Nat) : List Nat := s.dropLast.dropLast

/-- Decimal rendering of a natural number (Rust `format!("{n}")`). -/
def natToDec (n : Nat) : List Nat := (Nat.repr n).data.map Char.toNat

/-- `BufRead::read_line`: take bytes up to and including the first `\n` (byte 10);
at end of input the returned line is what remains (possibly empty). -/
def splitAtNewline : List Nat → List Nat × List Nat
  | [] => ([], [])
  | b :: rest =>
    if b = 10 then ([10], rest)
    else
      let p := splitAtNewline rest
      (b :: p.1, p.2)

/-- A Unicode scalar value: any codepoint below `0x110000` that is not a
surrogate. -/
def ValidScalar (n : Nat) : Prop := n < 0xD800 ∨ (0xDFFF < n ∧ n < 0x110000)

instance (n : Nat) : Decidable (ValidScalar n) := by
  unfold ValidScalar; infer_instance

/-- UTF-8 encoding of one scalar value. -/
def utf8EncodeChar (c : Nat) : List Nat :=
  if c < 0x80 then [c]
  else if c < 0x800 then [0xC0 + c / 64, 0x80 + c % 64]
  else if c < 0x10000 then
    [0xE0 + c / 4096, 0x80 + (c / 64) % 64, 0x80 + c % 64]
  else
    [0xF0 + c / 262144, 0x80 + (c / 4096) % 64, 0x80 + (c / 64) % 64, 0x80 + c % 64]

/-- UTF-8 encoding of a string of scalar values. -/
def utf8Encode : List Nat → List Nat
  | [] => []
  | c :: cs => utf8EncodeChar c ++ utf8Encode cs

/-- Whether a byte is a UTF-8 continuation byte. -/
def isCont (b : Nat) : Bool := 0x80 ≤ b && b < 0xC0

/-- Decode one UTF-8 scalar value from the front of a byte list, with the full
validation Rust's `String::from_utf8` performs: rejects stray continuation
bytes, overlong encodings, surrogate values and codepoints above `0x10FFFF`. -/
def utf8DecodeStep : List Nat → Option (Nat × List Nat)
  | [] => none
  | b1 :: rest =>
    if b1 < 0x80 then some (b1, rest)
    else if b1 < 0xC2 then none
    else if b1 < 0xE0 then
      match rest with
      | b2 :: rest2 =>
        if isCont b2 then some ((b1 - 0xC0) * 64 + (b2 - 0x80), rest2) else none
      | [] => none
    else if b1 < 0xF0 then
      match rest with
      | b2 :: b3 :: rest3 =>
        let n := (b1 - 0xE0) * 4096 + (b2 - 0x80) * 64 + (b3 - 0x80)
        if isCont b2 && isCont b3 && decide (0x800 ≤ n) &&
            !(decide (0xD800 ≤ n) && decide (n ≤ 0xDFFF)) then
          some (n, rest3)
        else none
      | _ => none
    else if b1 < 0xF5 then
      match rest with
      | b2 :: b3 :: b4 :: rest4 =>
        let n := (b1 - 0xF0) * 262144 + (b2 - 0x80) * 4096 +
          (b3 - 0x80) * 64 + (b4 - 0x80)
        if isCont b2 && isCont b3 && isCont b4 && decide (0x10000 ≤ n) &&
            decide (n ≤ 0x10FFFF) then
          some (n, rest4)
        else none
      | _ => none
    else none

/-- Fueled decoding loop; fuel bounds the recursion only, `input.length` is
always sufficient because every step consumes at least one byte. -/
def utf8DecodeGo : Nat → List Nat → Option (List Nat)
  | _, [] => some []
  | 0, _ :: _ => none
  | fuel + 1, l =>
    match utf8DecodeStep l with
    | none => none
    | some (c, rest) => (utf8DecodeGo fuel rest).map (c :: ·)

/-- UTF-8 decoding of a whole byte list (Rust `String::from_utf8`). -/
def utf8Decode (bs : List Nat) : Option (List Nat) := utf8DecodeGo bs.length bs

/-- UTF-8 byte encoding of a string literal. -/
def strBytes (s : String) : List Nat := utf8Encode (str s)

deriving instance DecidableEq for Except

/-! ## `src/error.rs` -/

/-- The two `std::io` error kinds the codec can produce: `InvalidData` from
`read_line` on non-UTF-8 bytes, `UnexpectedEof` from `read_exact`. -/
inductive IoKind where
  | invalidData
  | unexpectedEof
deriving DecidableEq, Repr

/-- `enum Error` from `src/error.rs` (the transparent wrappers keep only the
information the proofs need). -/
inductive Error where
  | InvalidRequestLine (line : List Nat)
  | MissingCRLFFromLine
  | InvalidHeader
  | InvalidPoolSize
  | CanNotCompress
  | IoError (k : IoKind)
  | StrumParseError
  | ParseIntError
  | FromUtf8Error
deriving DecidableEq, Repr

/-! ## `src/http.rs` data model -/

inductive HttpMethod where
  | Get
  | Post
deriving DecidableEq, Repr

inductive HttpVersion where
  | V1_1
deriving DecidableEq, Repr

inductive HttpStatus where
  | Ok200
  | NotFound404
  | Created201
deriving DecidableEq, Repr

structure HttpHeader where
  key : List Nat
  value : List Nat
deriving DecidableEq, Repr

/-- `enum HttpBody`: `Text` holds a decoded string (scalar values), `Gzip` holds
raw bytes. -/
inductive HttpBody where
  | Text (s : List Nat)
  | Gzip (bytes : List Nat)
deriving DecidableEq, Repr

structure HttpRequest where
  method : HttpMethod
  path : List Nat
  version : HttpVersion
  headers : List HttpHeader
  body : Option HttpBody
deriving DecidableEq, Repr

structure HttpResponse where
  status : HttpStatus
  version : HttpVersion
  headers : List HttpHeader
  body : Option HttpBody
deriving DecidableEq, Repr

/-- `impl From<HttpBody> for Vec<u8>`. -/
def httpBodyToBytes : HttpBody → List Nat
  | .Text s => utf8Encode s
  | .Gzip bytes => bytes

/-! ## `src/http.rs` operations -/

/-- `HttpMethod::from_str` (strum, `ascii_case_insensitive`). -/
def HttpMethod.from_str (s : List Nat) : Except Error HttpMethod :=
  if toLowercase s = str "get" then .ok .Get
  else if toLowercase s = str "post" then .ok .Post
  else .error .StrumParseError

/-- `HttpVersion::from_str` (strum, `ascii_case_insensitive`). -/
def HttpVersion.from_str (s : List Nat) : Except Error HttpVersion :=
  if toLowercase s = str "http/1.1" then .ok .V1_1
  else .error .StrumParseError

/-- `impl TryFrom<String> for HttpHeader`: require a trailing CRLF, split the
stripped line at the first `:`, trim key and value. -/
def HttpHeader.try_from (line : List Nat) : Except Error HttpHeader :=
  if endsWithCRLF line then
    match splitOnce 58 (dropLast2 line) with
    | none => .error .InvalidHeader
    | some (k, v) => .ok ⟨trim k, trim v⟩
  else .error .MissingCRLFFromLine

/-- Rust `str::parse::<usize>()`: an optional leading `+`, then one or more
ASCII digits, value below `2 ^ 64`. -/
def parseUsize (s : List Nat) : Except Error Nat :=
  let digits := match s with
    | 43 :: rest => rest
    | _ => s
  if digits = [] then .error .ParseIntError
  else if digits.all (fun c => 48 ≤ c && c ≤ 57) then
    let n := digits.foldl (fun a c => a * 10 + (c - 48)) 0
    if n < 2 ^ 64 then .ok n else .error .ParseIntError
  else .error .ParseIntError

/-- The `Content-Length` bookkeeping done for each parsed header inside the
header loop of `HttpRequest::try_from` (lines 54–56 of `src/http.rs`). -/
def clUpdate (cl : Nat) (h : HttpHeader) : Except Error Nat :=
  if toLowercase h.key = str "content-length" then parseUsize h.value
  else .ok cl

/-- The header loop of `HttpRequest::try_from` (lines 45–59): read a line; a
line of at most 2 bytes ends the header section; otherwise parse it as a header
and track the latest `Content-Length` value.  `fuel` only bounds the recursion;
`input.length + 1` is always sufficient (each iteration consumes at least three
bytes), and the fuel-exhaustion branch is unreachable from `parseHttpRequest`. -/
def headersLoop : Nat → List Nat → List HttpHeader → Nat →
    Except Error (List HttpHeader × Nat × List Nat)
  | 0, _, _, _ => .error (.IoError .unexpectedEof)
  | fuel + 1, input, acc, cl =>
    let p := splitAtNewline input
    match utf8Decode p.1 with
    | none => .error (.IoError .invalidData)
    | some s =>
      if p.1.length ≤ 2 then .ok (acc, cl, p.2)
      else
        match HttpHeader.try_from s with
        | .error e => .error e
        | .ok header =>
          match clUpdate cl header with
          | .error e => .error e
          | .ok cl2 => headersLoop fuel p.2 (acc ++ [header]) cl2

/-- Body handling of `HttpRequest::try_from` (lines 61–72): length 0 means no
body; otherwise `read_exact` that many bytes and decode them as UTF-8 text. -/
def parseBody (cl : Nat) (input : List Nat) : Except Error (Option HttpBody) :=
  if cl = 0 then .ok none
  else if input.length < cl then .error (.IoError .unexpectedEof)
  else
    match utf8Decode (input.take cl) with
    | none => .error .FromUtf8Error
    | some s => .ok (some (.Text s))

/-- `impl TryFrom<&mut BufReader<TcpStream>> for HttpRequest`: read the request
line (must end in CRLF, must split on `' '` into exactly three tokens), parse
method and version, run the header loop, then read the body dictated by the
last `Content-Length` value. -/
def parseHttpRequest (input : List Nat) : Except Error HttpRequest :=
  let p := splitAtNewline input
  match utf8Decode p.1 with
  | none => .error (.IoError .invalidData)
  | some s =>
    if endsWithCRLF s then
      let sline := dropLast2 s
      match splitOn 32 sline with
      | [m, pa, v] =>
        match HttpMethod.from_str m with
        | .error e => .error e
        | .ok method =>
          match HttpVersion.from_str v with
          | .error e => .error e
          | .ok version =>
            match headersLoop (p.2.length + 1) p.2 [] 0 with
            | .error e => .error e
            | .ok (headers, cl, rest2) =>
              match parseBody cl rest2 with
              | .error e => .error e
              | .ok body => .ok ⟨method, pa, version, headers, body⟩
      | _ => .error (.InvalidRequestLine sline)
    else .error .MissingCRLFFromLine

/-- `HttpBody::gzip_compress`, parameterized by the external `flate2` encoder
`gz`: serialize the body and wrap the encoder's output in `Gzip`. -/
def HttpBody.gzip_compress (gz : List Nat → List Nat) (b : HttpBody) : HttpBody :=
  .Gzip (gz (httpBodyToBytes b))

/-- One iteration body of the `for` loop in `HttpResponse::add_compression`: on
the first element that trims to `"gzip"`, compress the body, recompute
`Content-Length` from the compressed bytes, drop every old `Content-Length`
header (case-insensitive) and append `Content-Encoding: gzip` and the new
`Content-Length`, then break; other elements are skipped. -/
def addCompressionGo (gz : List Nat → List Nat) (resp : HttpResponse) :
    List (List Nat) → HttpResponse
  | [] => resp
  | e :: rest =>
    if trim e = str "gzip" then
      let body := resp.body.map (HttpBody.gzip_compress gz)
      let content_length := ((body.map httpBodyToBytes).getD []).length
      let headers :=
        (resp.headers.filter fun h => toLowercase h.key ≠ str "content-length") ++
        [⟨str "Content-Encoding", str "gzip"⟩,
         ⟨str "Content-Length", natToDec content_length⟩]
      { resp with body := body, headers := headers }
    else addCompressionGo gz resp rest

/-- `HttpResponse::add_compression` (lines 151–186 of `src/http.rs`). -/
def HttpResponse.add_compression (gz : List Nat → List Nat) (resp : HttpResponse)
    (accepted_encodings : List Nat) : HttpResponse :=
  addCompressionGo gz resp (splitOn 44 accepted_encodings)

/-- The value of the `Content-Length` header of a response as a client would
read it (case-insensitive key match, last occurrence winning). -/
def lastHeaderCI (key : List Nat) (hs : List HttpHeader) : Option (List Nat) :=
  ((hs.filter fun h => toLowercase h.key = key).getLast?).map HttpHeader.value

/-! ## `src/threadpool.rs` -/

/-- `ThreadPool::build`: fails with `InvalidPoolSize` when `size == 0`. -/
def ThreadPool.build (size : Nat) : Except Error Unit :=
  if size = 0 then .error .InvalidPoolSize else .ok ()

/-- A state of the worker-pool transition system: jobs not yet submitted by the
dispatcher (in submission order), jobs sitting in the mpsc channel (FIFO), and
the `(worker id, job)` pairs already received, in reception order. -/
structure PoolState where
  toSubmit : List Nat
  pending : List Nat
  executed : List (Nat × Nat)
deriving DecidableEq, Repr

/-- Interleaving semantics of the pool with `N` workers.  `submit` is
`ThreadPool::execute` (`Sender::send`); `dequeue` is one worker's
`receiver.lock().recv()` — the `Mutex` around the single `mpsc::Receiver` makes
the removal of the head job by one worker an atomic step. -/
inductive PoolStep (N : Nat) : PoolState → PoolState → Prop where
  | submit (j : Nat) (ts pe : List Nat) (ex : List (Nat × Nat)) :
      PoolStep N ⟨j :: ts, pe, ex⟩ ⟨ts, pe ++ [j], ex⟩
  | dequeue (w j : Nat) (ts pe : List Nat) (ex : List (Nat × Nat)) (hw : w < N) :
      PoolStep N ⟨ts, j :: pe, ex⟩ ⟨ts, pe, ex ++ [(w, j)]⟩

/-- Initial state: `M` distinct jobs `0, …, M-1` to submit, nothing queued,
nothing executed. -/
def initPool (M : Nat) : PoolState := ⟨List.range M, [], []⟩

/-- States reachable by any interleaving of submissions and worker receives. -/
def PoolReachable (N M : Nat) (s : PoolState) : Prop :=
  Relation.ReflTransGen (PoolStep N) (initPool M) s

/-! ## Splitting lemmas -/

theorem splitAtNewline_append (l : List Nat) :
    (splitAtNewline l).1 ++ (splitAtNewline l).2 = l := by
  induction l with
  | nil => rfl
  | cons b rest ih =>
    by_cases hb : b = 10
    · simp [splitAtNewline, hb]
    · simpa [splitAtNewline, hb] using ih

theorem splitAtNewline_of_no_nl (a b : List Nat) (ha : 10 ∉ a) :
    splitAtNewline (a ++ 10 :: b) = (a ++ [10], b) := by
  induction a with
  | nil => simp [splitAtNewline]
  | cons c rest ih =>
    have hc : c ≠ 10 := fun h => ha (h ▸ List.mem_cons_self c rest)
    have hrest : 10 ∉ rest := fun h => ha (List.mem_cons_of_mem c h)
    simp [splitAtNewline, hc, ih hrest]

theorem splitOn_ne_nil (d : Nat) (l : List Nat) : splitOn d l ≠ [] := by
  cases l with
  | nil => simp [splitOn]
  | cons c rest =>
    by_cases hc : c = d
    · simp [splitOn, hc]
    · simp only [splitOn, if_neg hc]
      rcases h : splitOn d rest with _ | ⟨p, ps⟩
      · simp
      · simp

theorem splitOn_of_not_mem (d : Nat) (l : List Nat) (h : d ∉ l) :
    splitOn d l = [l] := by
  induction l with
  | nil => rfl
  | cons c rest ih =>
    have hc : c ≠ d := fun hcd => h (hcd ▸ List.mem_cons_self c rest)
    have hrest : d ∉ rest := fun hm => h (List.mem_cons_of_mem c hm)
    simp [splitOn, hc, ih hrest]

theorem splitOn_append (d : Nat) (a b : List Nat) (ha : d ∉ a) :
    splitOn d (a ++ d :: b) = a :: splitOn d b := by
  induction a with
  | nil => simp [splitOn]
  | cons c rest ih =>
    have hc : c ≠ d := fun hcd => ha (hcd ▸ List.mem_cons_self c rest)
    have hrest : d ∉ rest := fun hm => ha (List.mem_cons_of_mem c hm)
    simp only [List.cons_append, splitOn, if_neg hc, List.append_eq]
    rw [ih hrest]

/-! ## UTF-8 round-trip lemmas -/

theorem utf8Encode_append (a b : List Nat) :
    utf8Encode (a ++ b) = utf8Encode a ++ utf8Encode b := by
  induction a with
  | nil => rfl
  | cons c rest ih => simp [utf8Encode, ih, List.append_assoc]

theorem utf8EncodeChar_ne_nil (c : Nat) : utf8EncodeChar c ≠ [] := by
  unfold utf8EncodeChar
  split_ifs <;> simp

/-- Every successful decoding step consumed the encoding of a valid scalar. -/
theorem utf8DecodeStep_some {l : List Nat} {c : Nat} {rest : List Nat}
    (h : utf8DecodeStep l = some (c, rest)) :
    ValidScalar c ∧ l = utf8EncodeChar c ++ rest := by
  rcases l with _ | ⟨b1, r⟩
  · simp [utf8DecodeStep] at h
  · simp only [utf8DecodeStep] at h
    by_cases h1 : b1 < 0x80
    · rw [if_pos h1] at h
      rw [Option.some.injEq, Prod.mk.injEq] at h
      obtain ⟨rfl, rfl⟩ := h
      refine ⟨Or.inl (by omega), ?_⟩
      rw [utf8EncodeChar, if_pos h1]
      rfl
    · rw [if_neg h1] at h
      by_cases h2 : b1 < 0xC2
      · rw [if_pos h2] at h; cases h
      · rw [if_neg h2] at h
        by_cases h3 : b1 < 0xE0
        · rw [if_pos h3] at h
          rcases r with _ | ⟨b2, r2⟩
          · cases h
          · simp only [] at h
            by_cases hc : isCont b2 = true
            · rw [if_pos hc] at h
              simp only [isCont, Bool.and_eq_true, decide_eq_true_eq] at hc
              rw [Option.some.injEq, Prod.mk.injEq] at h
              obtain ⟨rfl, rfl⟩ := h
              refine ⟨Or.inl (by omega), ?_⟩
              rw [utf8EncodeChar, if_neg (by omega), if_pos (by omega)]
              have e1 : 0xC0 + ((b1 - 0xC0) * 64 + (b2 - 0x80)) / 64 = b1 := by omega
              have e2 : 0x80 + ((b1 - 0xC0) * 64 + (b2 - 0x80)) % 64 = b2 := by omega
              rw [e1, e2]
              rfl
            · rw [if_neg hc] at h; cases h
        · rw [if_neg h3] at h
          by_cases h4 : b1 < 0xF0
          · rw [if_pos h4] at h
            rcases r with _ | ⟨b2, _ | ⟨b3, r3⟩⟩
            · cases h
            · simp only [] at h; cases h
            · simp only [] at h
              by_cases hc : (isCont b2 && isCont b3 &&
                  decide (0x800 ≤ (b1 - 0xE0) * 4096 + (b2 - 0x80) * 64 + (b3 - 0x80)) &&
                  !(decide (0xD800 ≤ (b1 - 0xE0) * 4096 + (b2 - 0x80) * 64 + (b3 - 0x80)) &&
                    decide ((b1 - 0xE0) * 4096 + (b2 - 0x80) * 64 + (b3 - 0x80) ≤ 0xDFFF)))
                    = true
              · rw [if_pos hc] at h
                simp only [isCont, Bool.and_eq_true, Bool.not_eq_true',
                  Bool.and_eq_false_iff, decide_eq_true_eq, decide_eq_false_iff_not] at hc
                rw [Option.some.injEq, Prod.mk.injEq] at h
                obtain ⟨rfl, rfl⟩ := h
                refine ⟨by unfold ValidScalar; omega, ?_⟩
                rw [utf8EncodeChar, if_neg (by omega), if_neg (by omega), if_pos (by omega)]
                have e1 : 0xE0 + ((b1 - 0xE0) * 4096 + (b2 - 0x80) * 64 + (b3 - 0x80)) / 4096
                    = b1 := by omega
                have e2 : 0x80 + (((b1 - 0xE0) * 4096 + (b2 - 0x80) * 64 + (b3 - 0x80)) / 64) % 64
                    = b2 := by omega
                have e3 : 0x80 + ((b1 - 0xE0) * 4096 + (b2 - 0x80) * 64 + (b3 - 0x80)) % 64
                    = b3 := by omega
                rw [e1, e2, e3]
                rfl
              · rw [if_neg hc] at h; cases h
          · rw [if_neg h4] at h
            by_cases h5 : b1 < 0xF5
            · rw [if_pos h5] at h
              rcases r with _ | ⟨b2, _ | ⟨b3, _ | ⟨b4, r4⟩⟩⟩
              · cases h
              · simp only [] at h; cases h
              · simp only [] at h; cases h
              · simp only [] at h
                by_cases hc : (isCont b2 && isCont b3 && isCont b4 &&
                    decide (0x10000 ≤ (b1 - 0xF0) * 262144 + (b2 - 0x80) * 4096 +
                      (b3 - 0x80) * 64 + (b4 - 0x80)) &&
                    decide ((b1 - 0xF0) * 262144 + (b2 - 0x80) * 4096 +
                      (b3 - 0x80) * 64 + (b4 - 0x80) ≤ 0x10FFFF)) = true
                · rw [if_pos hc] at h
                  simp only [isCont, Bool.and_eq_true, decide_eq_true_eq] at hc
                  rw [Option.some.injEq, Prod.mk.injEq] at h
                  obtain ⟨rfl, rfl⟩ := h
                  refine ⟨by unfold ValidScalar; omega, ?_⟩
                  rw [utf8EncodeChar, if_neg (by omega), if_neg (by omega), if_neg (by omega)]
                  have e1 : 0xF0 + ((b1 - 0xF0) * 262144 + (b2 - 0x80) * 4096 +
                      (b3 - 0x80) * 64 + (b4 - 0x80)) / 262144 = b1 := by omega
                  have e2 : 0x80 + (((b1 - 0xF0) * 262144 + (b2 - 0x80) * 4096 +
                      (b3 - 0x80) * 64 + (b4 - 0x80)) / 4096) % 64 = b2 := by omega
                  have e3 : 0x80 + (((b1 - 0xF0) * 262144 + (b2 - 0x80) * 4096 +
                      (b3 - 0x80) * 64 + (b4 - 0x80)) / 64) % 64 = b3 := by omega
                  have e4 : 0x80 + ((b1 - 0xF0) * 262144 + (b2 - 0x80) * 4096 +
                      (b3 - 0x80) * 64 + (b4 - 0x80)) % 64 = b4 := by omega
                  rw [e1, e2, e3, e4]
                  rfl
                · rw [if_neg hc] at h; cases h
            · rw [if_neg h5] at h; cases h

/-- Decoding steps over the encoding of any valid scalar. -/
theorem utf8DecodeStep_encodeChar (c : Nat) (h : ValidScalar c) (bs : List Nat) :
    utf8DecodeStep (utf8EncodeChar c ++ bs) = some (c, bs) := by
  unfold ValidScalar at h
  by_cases h1 : c < 0x80
  · rw [utf8EncodeChar, if_pos h1]
    show utf8DecodeStep (c :: bs) = _
    simp only [utf8DecodeStep]
    rw [if_pos h1]
  · by_cases h2 : c < 0x800
    · rw [utf8EncodeChar, if_neg h1, if_pos h2]
      show utf8DecodeStep ((0xC0 + c / 64) :: (0x80 + c % 64) :: bs) = _
      simp only [utf8DecodeStep]
      rw [if_neg (by omega), if_neg (by omega), if_pos (by omega)]
      rw [if_pos (by simp only [isCont, Bool.and_eq_true, decide_eq_true_eq]; omega)]
      rw [Option.some.injEq, Prod.mk.injEq]
      exact ⟨by omega, rfl⟩
    · by_cases h3 : c < 0x10000
      · rw [utf8EncodeChar, if_neg h1, if_neg h2, if_pos h3]
        show utf8DecodeStep ((0xE0 + c / 4096) :: (0x80 + (c / 64) % 64) ::
          (0x80 + c % 64) :: bs) = _
        simp only [utf8DecodeStep]
        rw [if_neg (by omega), if_neg (by omega), if_neg (by omega), if_pos (by omega)]
        rw [if_pos (by
          simp only [isCont, Bool.and_eq_true, Bool.not_eq_true', Bool.and_eq_false_iff,
            decide_eq_true_eq, decide_eq_false_iff_not]
          omega)]
        rw [Option.some.injEq, Prod.mk.injEq]
        exact ⟨by omega, rfl⟩
      · rw [utf8EncodeChar, if_neg h1, if_neg h2, if_neg h3]
        show utf8DecodeStep ((0xF0 + c / 262144) :: (0x80 + (c / 4096) % 64) ::
          (0x80 + (c / 64) % 64) :: (0x80 + c % 64) :: bs) = _
        simp only [utf8DecodeStep]
        rw [if_neg (by omega), if_neg (by omega), if_neg (by omega), if_neg (by omega),
          if_pos (by omega)]
        rw [if_pos (by simp only [isCont, Bool.and_eq_true, decide_eq_true_eq]; omega)]
        rw [Option.some.injEq, Prod.mk.injEq]
        exact ⟨by omega, rfl⟩

theorem utf8DecodeGo_nil (fuel : Nat) : utf8DecodeGo fuel [] = some [] := by
  cases fuel <;> rfl

/-- Any fuel of at least the input length decodes identically. -/
theorem utf8DecodeGo_fuel (fuel fuel2 : Nat) (l : List Nat)
    (hf : l.length ≤ fuel) (hf2 : l.length ≤ fuel2) :
    utf8DecodeGo fuel l = utf8DecodeGo fuel2 l := by
  induction fuel generalizing fuel2 l with
  | zero =>
    have : l = [] := List.length_eq_zero.mp (Nat.le_zero.mp hf)
    subst this
    rw [utf8DecodeGo_nil, utf8DecodeGo_nil]
  | succ fuel ih =>
    rcases l with _ | ⟨x, xs⟩
    · rw [utf8DecodeGo_nil, utf8DecodeGo_nil]
    · rcases fuel2 with _ | fuel2
      · simp at hf2
      · show (match utf8DecodeStep (x :: xs) with
            | none => none
            | some (c, rest) => (utf8DecodeGo fuel rest).map (c :: ·)) =
          (match utf8DecodeStep (x :: xs) with
            | none => none
            | some (c, rest) => (utf8DecodeGo fuel2 rest).map (c :: ·))
        rcases hstep : utf8DecodeStep (x :: xs) with _ | ⟨c, rest⟩
        · rfl
        · simp only []
          obtain ⟨-, hl⟩ := utf8DecodeStep_some hstep
          have hlen : rest.length < (x :: xs).length := by
            rw [hl, List.length_append]
            have := utf8EncodeChar_ne_nil c
            have : 0 < (utf8EncodeChar c).length := List.length_pos.mpr this
            omega
          simp only [List.length_cons] at hlen hf hf2
          rw [ih fuel2 rest (by omega) (by omega)]

/-- The decoder consumes the head character then continues. -/
theorem utf8Decode_step {l : List Nat} {c : Nat} {rest : List Nat}
    (h : utf8DecodeStep l = some (c, rest)) :
    utf8Decode l = (utf8Decode rest).map (c :: ·) := by
  obtain ⟨-, hl⟩ := utf8DecodeStep_some h
  rcases l with _ | ⟨x, xs⟩
  · simp [utf8DecodeStep] at h
  · show utf8DecodeGo (xs.length + 1) (x :: xs) = _
    have hred : utf8DecodeGo (xs.length + 1) (x :: xs) =
        match utf8DecodeStep (x :: xs) with
        | none => none
        | some (c, rest) => (utf8DecodeGo xs.length rest).map (c :: ·) := rfl
    rw [hred, h]
    simp only []
    have hlen : rest.length ≤ xs.length := by
      have hl2 : (x :: xs).length = (utf8EncodeChar c).length + rest.length := by
        rw [hl, List.length_append]
      have := List.length_pos.mpr (utf8EncodeChar_ne_nil c)
      simp only [List.length_cons] at hl2
      omega
    rw [utf8DecodeGo_fuel xs.length rest.length rest hlen (Nat.le_refl _)]
    rfl

/-- A decoding failure at the head fails the whole decode. -/
theorem utf8Decode_none {l : List Nat} (hl : l ≠ [])
    (h : utf8DecodeStep l = none) : utf8Decode l = none := by
  rcases l with _ | ⟨x, xs⟩
  · exact absurd rfl hl
  · show utf8DecodeGo (xs.length + 1) (x :: xs) = none
    have hred : utf8DecodeGo (xs.length + 1) (x :: xs) =
        match utf8DecodeStep (x :: xs) with
        | none => none
        | some (c, rest) => (utf8DecodeGo xs.length rest).map (c :: ·) := rfl
    rw [hred, h]

/-- Encoding then decoding a string of valid scalars is the identity. -/
theorem utf8Decode_utf8Encode (cs : List Nat) (h : ∀ c ∈ cs, ValidScalar c) :
    utf8Decode (utf8Encode cs) = some cs := by
  induction cs with
  | nil => rfl
  | cons c rest ih =>
    have hc : ValidScalar c := h c (List.mem_cons_self c rest)
    have hrest : ∀ x ∈ rest, ValidScalar x := fun x hx => h x (List.mem_cons_of_mem c hx)
    show utf8Decode (utf8EncodeChar c ++ utf8Encode rest) = _
    rw [utf8Decode_step (utf8DecodeStep_encodeChar c hc (utf8Encode rest)), ih hrest,
      Option.map_some']

/-- Decoding then re-encoding reproduces the original bytes. -/
theorem utf8Encode_of_decode (l : List Nat) (cs : List Nat)
    (h : utf8Decode l = some cs) : utf8Encode cs = l := by
  have key : ∀ n l cs, List.length l ≤ n → utf8Decode l = some cs → utf8Encode cs = l := by
    intro n
    induction n with
    | zero =>
      intro l cs hl hd
      have : l = [] := List.length_eq_zero.mp (Nat.le_zero.mp hl)
      subst this
      rw [show utf8Decode [] = some [] from rfl] at hd
      cases hd
      rfl
    | succ n ih =>
      intro l cs hl hd
      rcases l with _ | ⟨x, xs⟩
      · rw [show utf8Decode [] = some [] from rfl] at hd
        cases hd
        rfl
      · rcases hstep : utf8DecodeStep (x :: xs) with _ | ⟨c, rest⟩
        · rw [utf8Decode_none (by simp) hstep] at hd
          cases hd
        · rw [utf8Decode_step hstep] at hd
          obtain ⟨cs2, hdec2, hcons⟩ := Option.map_eq_some'.mp hd
          obtain ⟨hval, hl2⟩ := utf8DecodeStep_some hstep
          have hrl : rest.length ≤ n := by
            have hl3 : (x :: xs).length = (utf8EncodeChar c).length + rest.length := by
              rw [hl2, List.length_append]
            have := List.length_pos.mpr (utf8EncodeChar_ne_nil c)
            simp only [List.length_cons] at hl3 hl
            omega
          subst hcons
          show utf8EncodeChar c ++ utf8Encode cs2 = x :: xs
          rw [ih rest cs2 hrl hdec2, hl2]
  exact key l.length l cs (Nat.le_refl _) h

/-! ## Content-Length bookkeeping lemmas -/

/-- The values of the `Content-Length` headers of a request, in order
(case-insensitive key match). -/
def clValues (hs : List HttpHeader) : List (List Nat) :=
  (hs.filter fun h => toLowercase h.key = str "content-length").map HttpHeader.value

theorem parseUsize_err_eq (u : List Nat) (e : Error)
    (h : parseUsize u = .error e) : e = .ParseIntError := by
  unfold parseUsize at h
  split at h <;> (try simp only [] at h) <;> split_ifs at h <;> (cases h; rfl)

theorem parseUsize_ok_or_err (u : List Nat) :
    (∃ n, parseUsize u = .ok n) ∨ parseUsize u = .error .ParseIntError := by
  rcases hp : parseUsize u with e | n
  · right
    rw [parseUsize_err_eq u e hp]
  · exact Or.inl ⟨n, rfl⟩

theorem clFold_empty (hs : List HttpHeader) (cl0 : Nat) (h : clValues hs = []) :
    List.foldlM clUpdate cl0 hs = .ok cl0 := by
  induction hs generalizing cl0 with
  | nil => rfl
  | cons hd t ih =>
    by_cases hk : toLowercase hd.key = str "content-length"
    · exact absurd h (by simp [clValues, List.filter_cons, hk])
    · have ht : clValues t = [] := by
        simpa [clValues, List.filter_cons, hk] using h
      show (clUpdate cl0 hd >>= fun b2 => List.foldlM clUpdate b2 t) = .ok cl0
      rw [show clUpdate cl0 hd = .ok cl0 from if_neg hk]
      exact ih cl0 ht

theorem clFold_last (hs : List HttpHeader) (cl0 : Nat) (vs : List (List Nat))
    (v : List Nat) (h : clValues hs = vs ++ [v])
    (hok : ∀ u ∈ vs, (parseUsize u).isOk = true) :
    List.foldlM clUpdate cl0 hs = parseUsize v := by
  induction hs generalizing cl0 vs with
  | nil => simp [clValues] at h
  | cons hd t ih =>
    show (clUpdate cl0 hd >>= fun b2 => List.foldlM clUpdate b2 t) = parseUsize v
    by_cases hk : toLowercase hd.key = str "content-length"
    · have hcons : hd.value :: clValues t = vs ++ [v] := by
        simpa [clValues, List.filter_cons, hk] using h
      rcases vs with _ | ⟨u, vs2⟩
      · simp only [List.nil_append] at hcons
        have hv : hd.value = v := by injection hcons
        have ht : clValues t = [] := by injection hcons with h1 h2
        rw [show clUpdate cl0 hd = parseUsize hd.value from if_pos hk, hv]
        rcases parseUsize_ok_or_err v with ⟨n, hn⟩ | herr
        · rw [hn]
          show List.foldlM clUpdate n t = _
          rw [clFold_empty t n ht]
        · rw [herr]
          rfl
      · simp only [List.cons_append] at hcons
        have hu : hd.value = u := by injection hcons
        have ht : clValues t = vs2 ++ [v] := by injection hcons
        have hdok : (parseUsize hd.value).isOk = true := by
          rw [hu]; exact hok u (List.mem_cons_self u vs2)
        rcases parseUsize_ok_or_err hd.value with ⟨n, hn⟩ | herr
        · rw [show clUpdate cl0 hd = parseUsize hd.value from if_pos hk, hn]
          exact ih n vs2 ht (fun x hx => hok x (List.mem_cons_of_mem u hx))
        · rw [herr] at hdok
          simp [Except.isOk, Except.toBool] at hdok
    · have ht : clValues t = vs ++ [v] := by
        simpa [clValues, List.filter_cons, hk] using h
      rw [show clUpdate cl0 hd = .ok cl0 from if_neg hk]
      exact ih cl0 vs ht hok

theorem clFold_err (hs : List HttpHeader) (cl0 : Nat)
    (h : ∃ u ∈ clValues hs, ¬ (parseUsize u).isOk = true) :
    List.foldlM clUpdate cl0 hs = .error .ParseIntError := by
  induction hs generalizing cl0 with
  | nil => simp [clValues] at h
  | cons hd t ih =>
    show (clUpdate cl0 hd >>= fun b2 => List.foldlM clUpdate b2 t) = .error .ParseIntError
    by_cases hk : toLowercase hd.key = str "content-length"
    · rcases parseUsize_ok_or_err hd.value with ⟨n, hn⟩ | herr
      · rw [show clUpdate cl0 hd = parseUsize hd.value from if_pos hk, hn]
        obtain ⟨u, hu, hbad⟩ := h
        have hu2 : u ∈ hd.value :: clValues t := by
          simpa [clValues, List.filter_cons, hk] using hu
        rcases List.mem_cons.mp hu2 with rfl | htl
        · rw [hn] at hbad
          simp [Except.isOk, Except.toBool] at hbad
        · exact ih n ⟨u, htl, hbad⟩
      · rw [show clUpdate cl0 hd = parseUsize hd.value from if_pos hk, herr]
        rfl
    · rw [show clUpdate cl0 hd = .ok cl0 from if_neg hk]
      refine ih cl0 ?_
      obtain ⟨u, hu, hbad⟩ := h
      exact ⟨u, by simpa [clValues, List.filter_cons, hk] using hu, hbad⟩

/-! ## Header-loop lemmas -/

/-- A successful header loop leaves a suffix of the input for the body, extends
the accumulator, and its final `Content-Length` value is the fold of `clUpdate`
over the newly parsed headers. -/
theorem headersLoop_ok_props : ∀ (fuel : Nat) (input : List Nat)
    (acc : List HttpHeader) (cl : Nat) (hs : List HttpHeader) (cl2 : Nat)
    (rest2 : List Nat), headersLoop fuel input acc cl = .ok (hs, cl2, rest2) →
    rest2 <:+ input ∧
    ∃ new, hs = acc ++ new ∧ List.foldlM clUpdate cl new = .ok cl2 := by
  intro fuel
  induction fuel with
  | zero =>
    intro input acc cl hs cl2 rest2 h
    simp [headersLoop] at h
  | succ fuel ih =>
    intro input acc cl hs cl2 rest2 h
    simp only [headersLoop] at h
    rcases hdec : utf8Decode (splitAtNewline input).1 with _ | s
    · rw [hdec] at h; cases h
    · rw [hdec] at h
      simp only [] at h
      by_cases hlen : (splitAtNewline input).1.length ≤ 2
      · rw [if_pos hlen] at h
        rw [Except.ok.injEq, Prod.mk.injEq, Prod.mk.injEq] at h
        obtain ⟨hacc, hcl2, hr⟩ := h
        subst hacc
        subst hcl2
        subst hr
        exact ⟨⟨(splitAtNewline input).1, splitAtNewline_append input⟩,
          [], by simp, rfl⟩
      · rw [if_neg hlen] at h
        rcases hh : HttpHeader.try_from s with e | header
        · rw [hh] at h; cases h
        · rw [hh] at h
          simp only [] at h
          rcases hcl : clUpdate cl header with e | cl3
          · rw [hcl] at h; cases h
          · rw [hcl] at h
            simp only [] at h
            obtain ⟨hsub, new2, hnew2, hfold⟩ :=
              ih (splitAtNewline input).2 (acc ++ [header]) cl3 hs cl2 rest2 h
            refine ⟨hsub.trans ⟨(splitAtNewline input).1, splitAtNewline_append input⟩,
              header :: new2, by simpa using hnew2, ?_⟩
            show (clUpdate cl header >>= fun b2 => List.foldlM clUpdate b2 new2) = .ok cl2
            rw [hcl]
            exact hfold

/-! ## Small byte/string lemmas -/

theorem endsWithCRLF_concat (l : List Nat) : endsWithCRLF (l ++ [13, 10]) = true := by
  simp [endsWithCRLF, List.reverse_append]

theorem dropLast2_concat (l : List Nat) : dropLast2 (l ++ [13, 10]) = l := by
  have : l ++ [13, 10] = (l ++ [13]) ++ [10] := by simp
  rw [dropLast2, this, List.dropLast_concat, List.dropLast_concat]

theorem utf8EncodeChar_mem (b c : Nat) (h : b ∈ utf8EncodeChar c) :
    b = c ∨ 0x80 ≤ b := by
  unfold utf8EncodeChar at h
  split_ifs at h <;> simp at h <;> omega

theorem utf8Encode_not_mem_10 (a : List Nat) (h : 10 ∉ a) : 10 ∉ utf8Encode a := by
  induction a with
  | nil => simp [utf8Encode]
  | cons c t ih =>
    show 10 ∉ utf8EncodeChar c ++ utf8Encode t
    rw [List.mem_append]
    rintro (hc | ht)
    · obtain h1 | hge := utf8EncodeChar_mem 10 c hc
      · subst h1
        exact h (List.mem_cons_self _ _)
      · omega
    · exact ih (fun hm => h (List.mem_cons_of_mem c hm)) ht

/-! ## Claims about request-line decoding -/

/-- C5: request-line decoding fails with `MissingCRLFFromLine` when the first
line is not CRLF-terminated, and fails with `InvalidRequestLine` carrying the
CRLF-stripped line when splitting it on the space character yields a token
count other than three; both outcomes are returned errors, not panics. -/
theorem claim_C5 (input lineBytes rest s : List Nat)
    (hsplit : splitAtNewline input = (lineBytes, rest))
    (hdec : utf8Decode lineBytes = some s) :
    (endsWithCRLF s = false → parseHttpRequest input = .error .MissingCRLFFromLine) ∧
    (endsWithCRLF s = true → (splitOn 32 (dropLast2 s)).length ≠ 3 →
      parseHttpRequest input = .error (.InvalidRequestLine (dropLast2 s))) := by
  constructor
  · intro hcrlf
    unfold parseHttpRequest
    rw [hsplit]
    simp only []
    rw [hdec]
    simp only []
    rw [if_neg (by rw [hcrlf]; exact Bool.false_ne_true)]
  · intro hcrlf hlen
    unfold parseHttpRequest
    rw [hsplit]
    simp only []
    rw [hdec]
    simp only []
    rw [if_pos hcrlf]
    rcases hsp : splitOn 32 (dropLast2 s) with _ | ⟨a, _ | ⟨b, _ | ⟨c, _ | ⟨d, l⟩⟩⟩⟩
    all_goals simp only []
    all_goals first
      | rfl
      | exact absurd (by rw [hsp]; simp) hlen

/-- Witness for C5 at concrete inputs: a two-token request line yields
`InvalidRequestLine`, a request line with no CRLF yields
`MissingCRLFFromLine`. -/
theorem claim_C5_witness :
    parseHttpRequest (strBytes "GET /\r\n") = .error (.InvalidRequestLine (str "GET /")) ∧
    parseHttpRequest (strBytes "GET / HTTP/1.1") = .error .MissingCRLFFromLine := by
  constructor
  · exact (claim_C5 (strBytes "GET /\r\n") (strBytes "GET /\r\n") [] (str "GET /\r\n")
      (by decide) (by decide)).2 (by decide) (by decide)
  · exact (claim_C5 (strBytes "GET / HTTP/1.1") (strBytes "GET / HTTP/1.1") []
      (str "GET / HTTP/1.1") (by decide) (by decide)).1 (by decide)

/-- C10: a CRLF-terminated request line `GET <p> HTTP/1.1` decodes successfully
for any token `p` free of spaces and newlines — in particular the empty token,
as produced by two consecutive spaces — and `p` becomes the request's path;
an empty path is never rejected. -/
theorem claim_C10 (p : List Nat) (hval : ∀ c ∈ p, ValidScalar c)
    (h10 : 10 ∉ p) (h32 : 32 ∉ p) :
    parseHttpRequest (utf8Encode (str "GET " ++ p ++ str " HTTP/1.1" ++ [13, 10])) =
      .ok ⟨.Get, p, .V1_1, [], none⟩ := by
  have hline : str "GET " ++ p ++ str " HTTP/1.1" ++ [13, 10] =
      (str "GET " ++ p ++ str " HTTP/1.1" ++ [13]) ++ 10 :: [] := by
    simp
  have hno10 : (10 : Nat) ∉ str "GET " ++ p ++ str " HTTP/1.1" ++ [13] := by
    intro hm
    rcases List.mem_append.mp hm with hm2 | hm3
    · rcases List.mem_append.mp hm2 with hm4 | hm5
      · rcases List.mem_append.mp hm4 with hm6 | hm7
        · revert hm6; decide
        · exact h10 hm7
      · revert hm5; decide
    · revert hm3; decide
  have hvalall : ∀ c ∈ str "GET " ++ p ++ str " HTTP/1.1" ++ [13, 10], ValidScalar c := by
    intro c hm
    rcases List.mem_append.mp hm with hm2 | hm3
    · rcases List.mem_append.mp hm2 with hm4 | hm5
      · rcases List.mem_append.mp hm4 with hm6 | hm7
        · exact (by decide : ∀ x ∈ str "GET ", ValidScalar x) c hm6
        · exact hval c hm7
      · exact (by decide : ∀ x ∈ str " HTTP/1.1", ValidScalar x) c hm5
    · exact (by decide : ∀ x ∈ ([13, 10] : List Nat), ValidScalar x) c hm3
  have hsplit : splitAtNewline
      (utf8Encode (str "GET " ++ p ++ str " HTTP/1.1" ++ [13, 10])) =
      (utf8Encode (str "GET " ++ p ++ str " HTTP/1.1" ++ [13, 10]), []) := by
    rw [hline, utf8Encode_append]
    rw [show utf8Encode (10 :: []) = 10 :: [] from rfl]
    rw [splitAtNewline_of_no_nl _ _ (utf8Encode_not_mem_10 _ hno10)]
  have hdec : utf8Decode (utf8Encode (str "GET " ++ p ++ str " HTTP/1.1" ++ [13, 10])) =
      some (str "GET " ++ p ++ str " HTTP/1.1" ++ [13, 10]) :=
    utf8Decode_utf8Encode _ hvalall
  unfold parseHttpRequest
  rw [hsplit]
  simp only []
  rw [hdec]
  simp only []
  have hassoc : str "GET " ++ p ++ str " HTTP/1.1" ++ [13, 10] =
      (str "GET " ++ p ++ str " HTTP/1.1") ++ [13, 10] := by simp
  rw [if_pos (by rw [hassoc]; exact endsWithCRLF_concat _)]
  rw [show dropLast2 (str "GET " ++ p ++ str " HTTP/1.1" ++ [13, 10]) =
      str "GET " ++ p ++ str " HTTP/1.1" from by rw [hassoc]; exact dropLast2_concat _]
  have hform : str "GET " ++ p ++ str " HTTP/1.1" =
      str "GET" ++ 32 :: (p ++ 32 :: str "HTTP/1.1") := by
    rw [show str "GET " = str "GET" ++ [32] from by decide,
      show str " HTTP/1.1" = 32 :: str "HTTP/1.1" from by decide]
    simp
  rw [hform, splitOn_append 32 _ _ (by decide),
    splitOn_append 32 _ _ h32, splitOn_of_not_mem 32 _ (by decide)]
  simp only []
  rw [show HttpMethod.from_str (str "GET") = .ok .Get from rfl]
  simp only []
  rw [show HttpVersion.from_str (str "HTTP/1.1") = .ok .V1_1 from rfl]
  simp only []
  rfl

/-- Witness for C10: the request line `GET  HTTP/1.1` (two consecutive spaces,
empty middle token) decodes to a request whose path is empty. -/
theorem claim_C10_witness :
    parseHttpRequest (strBytes "GET  HTTP/1.1\r\n") =
      .ok ⟨.Get, [], .V1_1, [], none⟩ := by
  have h := claim_C10 [] (by decide) (by decide) (by decide)
  simpa using h

/-! ## Claims about CRLF framing (C7) -/

/-- Counterexample to C7: the header-section terminator needs no CRLF.  A
request consisting of only the request line (EOF immediately after it, so the
terminating header line is read as the empty string) and a request whose
header section ends with a bare LF line both decode successfully. -/
theorem claim_C7_counterexample :
    parseHttpRequest (strBytes "GET / HTTP/1.1\r\n") =
      .ok ⟨.Get, str "/", .V1_1, [], none⟩ ∧
    parseHttpRequest (strBytes "GET / HTTP/1.1\r\n\n") =
      .ok ⟨.Get, str "/", .V1_1, [], none⟩ := by
  constructor <;> decide

/-- C7 amended: the request line must be CRLF-terminated and every header line
longer than two bytes must be CRLF-terminated (absence is a typed parse error),
but the line terminating the header section is any line of at most two bytes —
a bare CRLF, a bare LF, or end of input — and no CRLF is required of it. -/
theorem claim_C7_amended :
    (∀ input lineBytes rest s, splitAtNewline input = (lineBytes, rest) →
      utf8Decode lineBytes = some s → endsWithCRLF s = false →
      parseHttpRequest input = .error .MissingCRLFFromLine) ∧
    (∀ fuel input lineBytes rest s acc cl, splitAtNewline input = (lineBytes, rest) →
      utf8Decode lineBytes = some s → 2 < lineBytes.length → endsWithCRLF s = false →
      headersLoop (fuel + 1) input acc cl = .error .MissingCRLFFromLine) ∧
    (∀ fuel input lineBytes rest s acc cl, splitAtNewline input = (lineBytes, rest) →
      utf8Decode lineBytes = some s → lineBytes.length ≤ 2 →
      headersLoop (fuel + 1) input acc cl = .ok (acc, cl, rest)) := by
  refine ⟨?_, ?_, ?_⟩
  · intro input lineBytes rest s hsplit hdec hcrlf
    unfold parseHttpRequest
    rw [hsplit]
    simp only []
    rw [hdec]
    simp only []
    rw [if_neg (by rw [hcrlf]; exact Bool.false_ne_true)]
  · intro fuel input lineBytes rest s acc cl hsplit hdec hlen hcrlf
    simp only [headersLoop]
    rw [hsplit]
    simp only []
    rw [hdec]
    simp only []
    rw [if_neg (by omega)]
    rw [show HttpHeader.try_from s = .error .MissingCRLFFromLine from by
      unfold HttpHeader.try_from
      rw [if_neg (by rw [hcrlf]; exact Bool.false_ne_true)]]
  · intro fuel input lineBytes rest s acc cl hsplit hdec hlen
    simp only [headersLoop]
    rw [hsplit]
    simp only []
    rw [hdec]
    simp only []
    rw [if_pos hlen]

/-- Witness for C7 amended, at concrete inputs: a request line without CRLF
fails, an over-long header line without CRLF fails, and a one-byte LF line
terminates the header section. -/
theorem claim_C7_amended_witness :
    parseHttpRequest (strBytes "ABC") = .error .MissingCRLFFromLine ∧
    headersLoop 1 (strBytes "abcd\nrest") [] 0 = .error .MissingCRLFFromLine ∧
    headersLoop 1 (strBytes "\nXYZ") [] 5 = .ok ([], 5, strBytes "XYZ") := by
  refine ⟨?_, ?_, ?_⟩
  · exact claim_C7_amended.1 (strBytes "ABC") (strBytes "ABC") [] (str "ABC")
      (by decide) (by decide) (by decide)
  · exact claim_C7_amended.2.1 0 (strBytes "abcd\nrest") (strBytes "abcd\n")
      (strBytes "rest") (str "abcd\n") [] 0 (by decide) (by decide) (by decide) (by decide)
  · exact claim_C7_amended.2.2 0 (strBytes "\nXYZ") (strBytes "\n") (strBytes "XYZ")
      (str "\n") [] 5 (by decide) (by decide) (by decide)

/-! ## Claims about header-line parsing (C6) -/

theorem splitOnce_none (d : Nat) (l : List Nat) (h : ∀ c ∈ l, c ≠ d) :
    splitOnce d l = none := by
  induction l with
  | nil => rfl
  | cons c rest ih =>
    have hc : c ≠ d := h c (List.mem_cons_self c rest)
    simp only [splitOnce, if_neg hc]
    rw [ih (fun x hx => h x (List.mem_cons_of_mem c hx))]
    rfl

theorem splitOnce_some_no_delim (d : Nat) : ∀ (l k v : List Nat),
    splitOnce d l = some (k, v) → d ∉ k := by
  intro l
  induction l with
  | nil => intro k v h; cases h
  | cons c rest ih =>
    intro k v h
    by_cases hc : c = d
    · rw [show splitOnce d (c :: rest) = some ([], rest) from by
        simp only [splitOnce, if_pos hc]] at h
      rw [Option.some.injEq, Prod.mk.injEq] at h
      obtain ⟨hk, -⟩ := h
      rw [← hk]
      simp
    · simp only [splitOnce, if_neg hc] at h
      rcases hrec : splitOnce d rest with _ | ⟨k2, v2⟩
      · rw [hrec] at h; cases h
      · rw [hrec] at h
        simp only [Option.map_some', Option.some.injEq, Prod.mk.injEq] at h
        obtain ⟨hk, -⟩ := h
        rw [← hk]
        intro hmem
        rcases List.mem_cons.mp hmem with rfl | hmem2
        · exact hc rfl
        · exact ih k2 v2 hrec hmem2

/-- Counterexample to C6: a header line containing two `:` characters is not
rejected — `split_once` only needs at least one `:` — so "must contain exactly
one `:`" does not hold. -/
theorem claim_C6_counterexample :
    HttpHeader.try_from (str "Host: a:b\r\n") = .ok ⟨str "Host", str "a:b"⟩ ∧
    (str "Host: a:b\r\n").count 58 = 2 := by
  constructor <;> decide

/-- C6 amended: a CRLF-terminated header line must contain at least one `:`;
the first occurrence splits key from value (the key contains no `:`), a line
with no `:` fails with `InvalidHeader`, and key and value are trimmed. -/
theorem claim_C6_amended (line : List Nat) (hcrlf : endsWithCRLF line = true) :
    ((∀ c ∈ dropLast2 line, c ≠ 58) →
      HttpHeader.try_from line = .error .InvalidHeader) ∧
    (∀ k v, splitOnce 58 (dropLast2 line) = some (k, v) →
      HttpHeader.try_from line = .ok ⟨trim k, trim v⟩ ∧ 58 ∉ k) := by
  constructor
  · intro h
    unfold HttpHeader.try_from
    rw [if_pos hcrlf, splitOnce_none 58 _ h]
  · intro k v hsp
    refine ⟨?_, splitOnce_some_no_delim 58 _ k v hsp⟩
    unfold HttpHeader.try_from
    rw [if_pos hcrlf, hsp]

/-- Witness for C6 amended at concrete lines: a colon-free line fails with
`InvalidHeader`; a line with a colon splits at it and trims both sides. -/
theorem claim_C6_amended_witness :
    HttpHeader.try_from (str "NoColonHere\r\n") = .error .InvalidHeader ∧
    (HttpHeader.try_from (str "X-A:  b \r\n") = .ok ⟨str "X-A", str "b"⟩ ∧
      58 ∉ str "X-A") := by
  constructor
  · exact (claim_C6_amended (str "NoColonHere\r\n") (by decide)).1 (by decide)
  · exact (claim_C6_amended (str "X-A:  b \r\n") (by decide)).2 (str "X-A")
      (str "  b ") (by decide)

/-! ## Claim C8: body round-trip -/

/-- C8: re-encoding a decoded body reproduces the body bytes exactly: a body
decoded by `parseBody` re-serializes (via `From<HttpBody> for Vec<u8>`) to
precisely the `Content-Length` bytes that were read, and any body of a
successfully decoded request re-serializes to a contiguous segment of the raw
request bytes. -/
theorem claim_C8 :
    (∀ (cl : Nat) (input : List Nat) (b : HttpBody),
      parseBody cl input = .ok (some b) → httpBodyToBytes b = input.take cl) ∧
    (∀ (input : List Nat) (req : HttpRequest) (b : HttpBody),
      parseHttpRequest input = .ok req → req.body = some b →
      httpBodyToBytes b <:+: input) := by
  have part1 : ∀ (cl : Nat) (input : List Nat) (b : HttpBody),
      parseBody cl input = .ok (some b) → httpBodyToBytes b = input.take cl := by
    intro cl input b h
    unfold parseBody at h
    by_cases h0 : cl = 0
    · rw [if_pos h0] at h
      simp at h
    · rw [if_neg h0] at h
      by_cases hlt : input.length < cl
      · rw [if_pos hlt] at h; cases h
      · rw [if_neg hlt] at h
        rcases hdec : utf8Decode (input.take cl) with _ | s
        · rw [hdec] at h; cases h
        · rw [hdec] at h
          simp only [] at h
          rw [Except.ok.injEq, Option.some.injEq] at h
          subst h
          exact utf8Encode_of_decode _ _ hdec
  refine ⟨part1, ?_⟩
  intro input req b h hb
  simp only [parseHttpRequest] at h
  rcases hdecL : utf8Decode (splitAtNewline input).1 with _ | s
  · rw [hdecL] at h; cases h
  · rw [hdecL] at h
    simp only [] at h
    by_cases hcrlf : endsWithCRLF s = true
    · rw [if_pos hcrlf] at h
      rcases hsp : splitOn 32 (dropLast2 s) with _ | ⟨m, _ | ⟨pa, _ | ⟨v, _ | ⟨d, l⟩⟩⟩⟩ <;>
          rw [hsp] at h <;> simp only [] at h
      · cases h
      · cases h
      · cases h
      · rcases hm : HttpMethod.from_str m with e | method
        · rw [hm] at h; cases h
        · rw [hm] at h
          simp only [] at h
          rcases hv : HttpVersion.from_str v with e | version
          · rw [hv] at h; cases h
          · rw [hv] at h
            simp only [] at h
            rcases hhl : headersLoop ((splitAtNewline input).2.length + 1)
                (splitAtNewline input).2 [] 0 with e | t3
            · rw [hhl] at h; cases h
            · rcases t3 with ⟨headers, cl, rest2⟩
              rw [hhl] at h
              simp only [] at h
              rcases hpb : parseBody cl rest2 with e | body
              · rw [hpb] at h; cases h
              · rw [hpb] at h
                simp only [] at h
                rw [Except.ok.injEq] at h
                subst h
                rw [show HttpRequest.body
                    ⟨method, pa, version, headers, body⟩ = body from rfl] at hb
                subst hb
                obtain ⟨hsuf, -⟩ := headersLoop_ok_props _ _ _ _ _ _ _ hhl
                rw [part1 cl rest2 b hpb]
                have hpre : rest2.take cl <+: rest2 := List.take_prefix cl rest2
                have hsuf2 : (splitAtNewline input).2 <:+ input :=
                  ⟨(splitAtNewline input).1, splitAtNewline_append input⟩
                exact hpre.isInfix.trans (hsuf.trans hsuf2).isInfix
      · cases h
    · rw [if_neg hcrlf] at h; cases h

/-- Witness for C8: a three-byte body re-encodes to the three bytes read, both
at the `parseBody` level and inside a full request decode. -/
theorem claim_C8_witness :
    httpBodyToBytes (.Text (str "abc")) = (strBytes "abcde").take 3 ∧
    httpBodyToBytes (.Text (str "abc")) <:+:
      strBytes "POST / HTTP/1.1\r\nContent-Length: 3\r\n\r\nabc" := by
  constructor
  · exact claim_C8.1 3 (strBytes "abcde") (.Text (str "abc")) (by decide)
  · exact claim_C8.2 (strBytes "POST / HTTP/1.1\r\nContent-Length: 3\r\n\r\nabc")
      ⟨.Post, str "/", .V1_1, [⟨str "Content-Length", str "3"⟩], some (.Text (str "abc"))⟩
      (.Text (str "abc")) (by decide) (by decide)

/-! ## Compression lemmas (C1, C2) -/

theorem addCompressionGo_no_gzip (gz : List Nat → List Nat) (resp : HttpResponse)
    (es : List (List Nat)) (h : ∀ e ∈ es, trim e ≠ str "gzip") :
    addCompressionGo gz resp es = resp := by
  induction es with
  | nil => rfl
  | cons e t ih =>
    have he : trim e ≠ str "gzip" := h e (List.mem_cons_self e t)
    simp only [addCompressionGo, if_neg he]
    exact ih (fun x hx => h x (List.mem_cons_of_mem e hx))

theorem addCompressionGo_gzip (gz : List Nat → List Nat) (resp : HttpResponse)
    (es : List (List Nat)) (h : ∃ e ∈ es, trim e = str "gzip") :
    addCompressionGo gz resp es =
      { resp with
        body := resp.body.map (HttpBody.gzip_compress gz),
        headers :=
          (resp.headers.filter fun hd => toLowercase hd.key ≠ str "content-length") ++
          [⟨str "Content-Encoding", str "gzip"⟩,
           ⟨str "Content-Length", natToDec
             ((((resp.body.map (HttpBody.gzip_compress gz)).map httpBodyToBytes).getD
               []).length)⟩] } := by
  induction es with
  | nil => simp at h
  | cons e t ih =>
    by_cases he : trim e = str "gzip"
    · simp only [addCompressionGo, if_pos he]
    · simp only [addCompressionGo, if_neg he]
      refine ih ?_
      obtain ⟨x, hx, hxg⟩ := h
      rcases List.mem_cons.mp hx with rfl | hx2
      · exact absurd hxg he
      · exact ⟨x, hx2, hxg⟩

/-- C1: when the comma-separated `Accept-Encoding` elements, after trimming,
include the exact token `gzip`, `add_compression` replaces the body with its
gzip-compressed form, the resulting `Content-Length` header (last occurrence,
case-insensitive) is the decimal length of the compressed bytes, and a
`Content-Encoding: gzip` header is appended; when no element trims to `gzip`,
the response is returned unchanged, with no error. -/
theorem claim_C1 (gz : List Nat → List Nat) (resp : HttpResponse) (enc : List Nat)
    (b : HttpBody) (hgz : ∃ e ∈ splitOn 44 enc, trim e = str "gzip")
    (hb : resp.body = some b) :
    (HttpResponse.add_compression gz resp enc).body
        = some (HttpBody.Gzip (gz (httpBodyToBytes b))) ∧
    lastHeaderCI (str "content-length") (HttpResponse.add_compression gz resp enc).headers
        = some (natToDec (gz (httpBodyToBytes b)).length) ∧
    (⟨str "Content-Encoding", str "gzip"⟩ : HttpHeader)
        ∈ (HttpResponse.add_compression gz resp enc).headers ∧
    (∀ enc2, (∀ e ∈ splitOn 44 enc2, trim e ≠ str "gzip") →
      HttpResponse.add_compression gz resp enc2 = resp) := by
  unfold HttpResponse.add_compression
  rw [addCompressionGo_gzip gz resp _ hgz]
  refine ⟨?_, ?_, ?_, ?_⟩
  · rw [hb]
    rfl
  · unfold lastHeaderCI
    rw [List.filter_append]
    rw [List.filter_filter]
    rw [show (List.filter (fun hd => decide (toLowercase hd.key = str "content-length") &&
        decide (toLowercase hd.key ≠ str "content-length")) resp.headers) = [] from
      List.filter_eq_nil_iff.mpr (by
        intro a ha
        simp only [Bool.and_eq_true, decide_eq_true_eq]
        rintro ⟨h1, h2⟩
        exact h2 h1)]
    rw [hb]
    simp [toLowercase, str]
    rfl
  · simp
  · intro enc2 h2
    exact addCompressionGo_no_gzip gz resp _ h2

/-- Witness for C1: concrete response with body `abc`, encoder duplicating its
input, accepted encodings `br, gzip`; and `br` alone leaves the response
unchanged. -/
theorem claim_C1_witness :
    (HttpResponse.add_compression (fun bs => bs ++ bs)
        ⟨.Ok200, .V1_1, [⟨str "Content-Type", str "text/plain"⟩,
          ⟨str "Content-Length", str "3"⟩], some (.Text (str "abc"))⟩
        (str "br, gzip")).body
      = some (HttpBody.Gzip ((fun bs => bs ++ bs) (httpBodyToBytes (.Text (str "abc"))))) ∧
    lastHeaderCI (str "content-length")
        (HttpResponse.add_compression (fun bs => bs ++ bs)
          ⟨.Ok200, .V1_1, [⟨str "Content-Type", str "text/plain"⟩,
            ⟨str "Content-Length", str "3"⟩], some (.Text (str "abc"))⟩
          (str "br, gzip")).headers
      = some (natToDec ((fun bs => bs ++ bs) (httpBodyToBytes (.Text (str "abc")))).length) ∧
    (⟨str "Content-Encoding", str "gzip"⟩ : HttpHeader)
      ∈ (HttpResponse.add_compression (fun bs => bs ++ bs)
          ⟨.Ok200, .V1_1, [⟨str "Content-Type", str "text/plain"⟩,
            ⟨str "Content-Length", str "3"⟩], some (.Text (str "abc"))⟩
          (str "br, gzip")).headers ∧
    HttpResponse.add_compression (fun bs => bs ++ bs)
        ⟨.Ok200, .V1_1, [⟨str "Content-Type", str "text/plain"⟩,
          ⟨str "Content-Length", str "3"⟩], some (.Text (str "abc"))⟩
        (str "br")
      = ⟨.Ok200, .V1_1, [⟨str "Content-Type", str "text/plain"⟩,
          ⟨str "Content-Length", str "3"⟩], some (.Text (str "abc"))⟩ := by
  have h := claim_C1 (fun bs => bs ++ bs)
    ⟨.Ok200, .V1_1, [⟨str "Content-Type", str "text/plain"⟩,
      ⟨str "Content-Length", str "3"⟩], some (.Text (str "abc"))⟩
    (str "br, gzip") (.Text (str "abc")) (by decide) rfl
  exact ⟨h.1, h.2.1, h.2.2.1, h.2.2.2 (str "br") (by decide)⟩

/-- Counterexample to C2: with no body at all, requesting `gzip` still appends
a `Content-Encoding: gzip` header (together with `Content-Length: 0`), so the
header does not appear "only when compression was actually applied". -/
theorem claim_C2_counterexample :
    (HttpResponse.add_compression (fun bs => bs)
        ⟨.Ok200, .V1_1, [], none⟩ (str "gzip")).body = none ∧
    (⟨str "Content-Encoding", str "gzip"⟩ : HttpHeader) ∈
      (HttpResponse.add_compression (fun bs => bs)
        ⟨.Ok200, .V1_1, [], none⟩ (str "gzip")).headers := by
  constructor <;> decide

/-- C2 amended: a `Content-Encoding: gzip` header appears in the output of
`add_compression` (given none was present before) exactly when the accepted
encodings contain a token trimming to `gzip` — irrespective of whether a body
is present; in particular a body-less response does gain the header. -/
theorem claim_C2_amended (gz : List Nat → List Nat) (resp : HttpResponse)
    (enc : List Nat)
    (hce : (⟨str "Content-Encoding", str "gzip"⟩ : HttpHeader) ∉ resp.headers) :
    ((⟨str "Content-Encoding", str "gzip"⟩ : HttpHeader) ∈
        (HttpResponse.add_compression gz resp enc).headers)
      ↔ ∃ e ∈ splitOn 44 enc, trim e = str "gzip" := by
  by_cases hgz : ∃ e ∈ splitOn 44 enc, trim e = str "gzip"
  · refine iff_of_true ?_ hgz
    unfold HttpResponse.add_compression
    rw [addCompressionGo_gzip gz resp _ hgz]
    simp
  · refine iff_of_false ?_ hgz
    push_neg at hgz
    unfold HttpResponse.add_compression
    rw [addCompressionGo_no_gzip gz resp _ hgz]
    exact hce

/-- Witness for C2 amended: on a body-less, header-less response, requesting
`gzip` makes the `Content-Encoding: gzip` header appear. -/
theorem claim_C2_amended_witness :
    (⟨str "Content-Encoding", str "gzip"⟩ : HttpHeader) ∉
      (⟨.Ok200, .V1_1, [], none⟩ : HttpResponse).headers ∧
    (((⟨str "Content-Encoding", str "gzip"⟩ : HttpHeader) ∈
        (HttpResponse.add_compression (fun bs => bs)
          ⟨.Ok200, .V1_1, [], none⟩ (str "gzip")).headers)
      ↔ ∃ e ∈ splitOn 44 (str "gzip"), trim e = str "gzip") := by
  refine ⟨by decide, ?_⟩
  exact claim_C2_amended (fun bs => bs) ⟨.Ok200, .V1_1, [], none⟩ (str "gzip") (by decide)

/-! ## Claim C4: Content-Length and body determination -/

/-- C4: the body of a request is determined by the `Content-Length` headers,
matched case-insensitively with the last occurrence winning; every observed
value must parse as a non-negative integer (a failure propagates as
`ParseIntError`); the header loop's resulting length is exactly the fold of
this bookkeeping; length 0 means no body; otherwise exactly that many bytes
are taken and decoded as UTF-8 text, failing with an end-of-input error when
too few bytes remain and with `FromUtf8Error` on invalid UTF-8. -/
theorem claim_C4 :
    (∀ (hs : List HttpHeader) (cl0 : Nat), clValues hs = [] →
      List.foldlM clUpdate cl0 hs = .ok cl0) ∧
    (∀ (hs : List HttpHeader) (cl0 : Nat) (vs : List (List Nat)) (v : List Nat),
      clValues hs = vs ++ [v] → (∀ u ∈ vs, (parseUsize u).isOk = true) →
      List.foldlM clUpdate cl0 hs = parseUsize v) ∧
    (∀ (hs : List HttpHeader) (cl0 : Nat),
      (∃ u ∈ clValues hs, ¬ (parseUsize u).isOk = true) →
      List.foldlM clUpdate cl0 hs = .error .ParseIntError) ∧
    (∀ (fuel : Nat) (input : List Nat) (acc : List HttpHeader) (cl : Nat)
      (hs : List HttpHeader) (cl2 : Nat) (rest2 : List Nat),
      headersLoop fuel input acc cl = .ok (hs, cl2, rest2) →
      ∃ new, hs = acc ++ new ∧ List.foldlM clUpdate cl new = .ok cl2) ∧
    (∀ rest : List Nat, parseBody 0 rest = .ok none) ∧
    (∀ (cl : Nat) (rest : List Nat), 0 < cl → rest.length < cl →
      parseBody cl rest = .error (.IoError .unexpectedEof)) ∧
    (∀ (cl : Nat) (rest s : List Nat), 0 < cl → cl ≤ rest.length →
      utf8Decode (rest.take cl) = some s → parseBody cl rest = .ok (some (.Text s))) ∧
    (∀ (cl : Nat) (rest : List Nat), 0 < cl → cl ≤ rest.length →
      utf8Decode (rest.take cl) = none → parseBody cl rest = .error .FromUtf8Error) := by
  refine ⟨clFold_empty, clFold_last, clFold_err, ?_, ?_, ?_, ?_, ?_⟩
  · intro fuel input acc cl hs cl2 rest2 h
    exact (headersLoop_ok_props fuel input acc cl hs cl2 rest2 h).2
  · intro rest
    rfl
  · intro cl rest h0 hlt
    unfold parseBody
    rw [if_neg (by omega), if_pos hlt]
  · intro cl rest s h0 hle hdec
    unfold parseBody
    rw [if_neg (by omega), if_neg (by omega), hdec]
  · intro cl rest h0 hle hdec
    unfold parseBody
    rw [if_neg (by omega), if_neg (by omega), hdec]

/-- Witness for C4 at concrete headers and bodies: no `Content-Length` keeps
the default, the last of two case-insensitively matched occurrences wins, an
unparseable value propagates `ParseIntError`, the header loop folds the
bookkeeping, and the body is read per the final length. -/
theorem claim_C4_witness :
    List.foldlM clUpdate 7 [⟨str "Host", str "x"⟩] = .ok 7 ∧
    List.foldlM clUpdate 0 [⟨str "Content-Length", str "3"⟩,
      ⟨str "content-LENGTH", str "7"⟩] = parseUsize (str "7") ∧
    List.foldlM clUpdate 0 [⟨str "Content-Length", str "abc"⟩]
      = .error .ParseIntError ∧
    (∃ new, [⟨str "A", str "b"⟩] = [(⟨str "A", str "b"⟩ : HttpHeader)] ++ new ∧
      List.foldlM clUpdate 4 new = .ok 4) ∧
    parseBody 0 (strBytes "xyz") = .ok none ∧
    parseBody 5 [104, 105] = .error (.IoError .unexpectedEof) ∧
    parseBody 2 (strBytes "hi!") = .ok (some (.Text (str "hi"))) ∧
    parseBody 1 [255, 65] = .error .FromUtf8Error := by
  refine ⟨claim_C4.1 [⟨str "Host", str "x"⟩] 7 (by decide),
    claim_C4.2.1 [⟨str "Content-Length", str "3"⟩, ⟨str "content-LENGTH", str "7"⟩]
      0 [str "3"] (str "7") (by decide) (by decide),
    claim_C4.2.2.1 [⟨str "Content-Length", str "abc"⟩] 0 (by decide),
    claim_C4.2.2.2.1 1 [] [⟨str "A", str "b"⟩] 4 [⟨str "A", str "b"⟩] 4 [] (by decide),
    claim_C4.2.2.2.2.1 (strBytes "xyz"),
    claim_C4.2.2.2.2.2.1 5 [104, 105] (by decide) (by decide),
    claim_C4.2.2.2.2.2.2.1 2 (strBytes "hi!") (str "hi") (by decide) (by decide) (by decide),
    claim_C4.2.2.2.2.2.2.2 1 [255, 65] (by decide) (by decide) (by decide)⟩

/-! ## Worker-pool lemmas (C9) -/

/-- Conservation: in every reachable state, the received jobs followed by the
queued jobs followed by the unsubmitted jobs are exactly the original `M` jobs
in order. -/
theorem poolInvariant (N M : Nat) (s : PoolState) (h : PoolReachable N M s) :
    s.executed.map Prod.snd ++ s.pending ++ s.toSubmit = List.range M := by
  induction h with
  | refl => simp [initPool]
  | tail hab hbc ih =>
    cases hbc with
    | submit j ts pe ex =>
      simp only [] at ih ⊢
      rw [← ih]
      simp [List.append_assoc]
    | dequeue w j ts pe ex hw =>
      simp only [] at ih ⊢
      rw [← ih]
      simp [List.append_assoc]

theorem filter_snd_length (ex : List (Nat × Nat)) (j : Nat) :
    (ex.filter fun p => p.2 = j).length = (ex.map Prod.snd).count j := by
  induction ex with
  | nil => rfl
  | cons p t ih =>
    by_cases hp : p.2 = j
    · simp [List.filter_cons, List.count_cons, hp, ih]
    · simp [List.filter_cons, List.count_cons, hp, ih]

/-- The received jobs of any reachable state form a duplicate-free list. -/
theorem poolExecutedNodup (N M : Nat) (s : PoolState) (h : PoolReachable N M s) :
    (s.executed.map Prod.snd).Nodup := by
  have hinv := poolInvariant N M s h
  have hpre : (s.executed.map Prod.snd) <+: List.range M :=
    ⟨s.pending ++ s.toSubmit, by rw [← List.append_assoc]; exact hinv⟩
  exact (List.nodup_range M).sublist hpre.sublist

theorem poolSubmitAll (N : Nat) (ts : List Nat) : ∀ (pe : List Nat)
    (ex : List (Nat × Nat)),
    Relation.ReflTransGen (PoolStep N) ⟨ts, pe, ex⟩ ⟨[], pe ++ ts, ex⟩ := by
  induction ts with
  | nil =>
    intro pe ex
    rw [List.append_nil]
  | cons j ts ih =>
    intro pe ex
    refine Relation.ReflTransGen.head (PoolStep.submit j ts pe ex) ?_
    have := ih (pe ++ [j]) ex
    simpa [List.append_assoc] using this

theorem poolDrainAll (N : Nat) (hN : 0 < N) (pe : List Nat) :
    ∀ ex : List (Nat × Nat),
    Relation.ReflTransGen (PoolStep N) ⟨[], pe, ex⟩
      ⟨[], [], ex ++ pe.map (fun j => (0, j))⟩ := by
  induction pe with
  | nil =>
    intro ex
    rw [List.map_nil, List.append_nil]
  | cons j pe ih =>
    intro ex
    refine Relation.ReflTransGen.head (PoolStep.dequeue 0 j [] pe ex hN) ?_
    have := ih (ex ++ [(0, j)])
    simpa [List.append_assoc] using this

/-- C9: with at least one worker the pool builds, and for `M` submitted jobs:
some complete run receives every job exactly once; in every reachable state no
job has been received by more than one worker (receive is exclusive); and in
every drained state (nothing left to submit, queue empty) every job was
received exactly once — none lost, none duplicated. -/
theorem claim_C9 (M N : Nat) (hN : 1 ≤ N) :
    ThreadPool.build N = .ok () ∧
    (∃ s, PoolReachable N M s ∧ s.toSubmit = [] ∧ s.pending = [] ∧
      ∀ j, j < M → (s.executed.filter fun p => p.2 = j).length = 1) ∧
    (∀ s, PoolReachable N M s → ∀ j,
      (s.executed.filter fun p => p.2 = j).length ≤ 1) ∧
    (∀ s, PoolReachable N M s → s.toSubmit = [] → s.pending = [] →
      ∀ j, j < M → (s.executed.filter fun p => p.2 = j).length = 1) := by
  refine ⟨?_, ?_, ?_, ?_⟩
  · unfold ThreadPool.build
    rw [if_neg (by omega)]
  · refine ⟨⟨[], [], (List.range M).map (fun j => (0, j))⟩, ?_, rfl, rfl, ?_⟩
    · have h1 := poolSubmitAll N (List.range M) [] []
      have h2 := poolDrainAll N (by omega) (List.range M) []
      simp only [List.nil_append] at h1 h2
      exact h1.trans h2
    · intro j hj
      rw [filter_snd_length]
      have : (((List.range M).map fun j => (0, j)).map Prod.snd) = List.range M := by
        simp
      rw [this]
      have hmem : j ∈ List.range M := List.mem_range.mpr hj
      have hnd := List.nodup_range M
      have hle := List.nodup_iff_count_le_one.mp hnd j
      have hpos : 0 < (List.range M).count j := List.count_pos_iff.mpr hmem
      omega
  · intro s hs j
    rw [filter_snd_length]
    exact List.nodup_iff_count_le_one.mp (poolExecutedNodup N M s hs) j
  · intro s hs hts hpe j hj
    have hinv := poolInvariant N M s hs
    rw [hts, hpe, List.append_nil, List.append_nil] at hinv
    rw [filter_snd_length, hinv]
    have hmem : j ∈ List.range M := List.mem_range.mpr hj
    have hle := List.nodup_iff_count_le_one.mp (List.nodup_range M) j
    have hpos : 0 < (List.range M).count j := List.count_pos_iff.mpr hmem
    omega

/-- Witness for C9 with two jobs and one worker: the pool builds, the initial
state has received nothing, and the fully drained run received both jobs
exactly once. -/
theorem claim_C9_witness :
    ThreadPool.build 1 = .ok () ∧
    ((initPool 2).executed.filter fun p => p.2 = 0).length ≤ 1 ∧
    (∃ s, PoolReachable 1 2 s ∧ s.toSubmit = [] ∧ s.pending = [] ∧
      ∀ j, j < 2 → (s.executed.filter fun p => p.2 = j).length = 1) := by
  refine ⟨(claim_C9 2 1 (by decide)).1, ?_, (claim_C9 2 1 (by decide)).2.1⟩
  exact (claim_C9 2 1 (by decide)).2.2.1 (initPool 2) Relation.ReflTransGen.refl 0
